import Mathlib

/-!
Shallow embedding of the mus_sort repository (src/mus_sort.py and the
src/src/musort rewrite) for checking its natural-language specification.

Strings are modelled as `List Char`.  Python's mutable state (the genre
cache, the error ledger, the filesystem) is passed explicitly.  Fallible
code returns `Except Unit _` (a Python `ValueError` is `.error ()`).
-/

namespace MusSort

/-- Python's whitespace set for `str.strip` / `textwrap` munging, restricted to
the ASCII whitespace characters (`' '`, `\t`, `\n`, `\x0b`, `\x0c`, `\r`);
the repository only produces ASCII-whitespace in path components. -/
def isPySpace (c : Char) : Bool :=
  c = ' ' || c = '\t' || c = '\n' || c = '\x0b' || c = '\x0c' || c = '\r'

/-- Python `str.strip()` (no argument): removes leading and trailing whitespace. -/
def pyStrip (s : List Char) : List Char :=
  ((s.dropWhile isPySpace).reverse.dropWhile isPySpace).reverse

/-- Python `s.split(c)[0]`: the characters before the first occurrence of `c`. -/
def takeUntil (c : Char) (s : List Char) : List Char :=
  s.takeWhile (· ≠ c)

/-- Worker for Python `str.replace`: scans left to right, replacing each
leftmost non-overlapping occurrence of `pat` with `rep`.  The `Nat` argument
counts matched characters still to be skipped (already emitted as `rep`). -/
def raGo (pat rep : List Char) : Nat → List Char → List Char
  | 0, [] => []
  | 0, c :: rest =>
    if pat ≠ [] ∧ pat.isPrefixOf (c :: rest) then
      rep ++ raGo pat rep (pat.length - 1) rest
    else
      c :: raGo pat rep 0 rest
  | _ + 1, [] => []
  | n + 1, _ :: rest => raGo pat rep n rest

/-- Python `s.replace(pat, rep)` for a non-empty `pat` (all patterns in the
repository's replacement tables are non-empty; for `pat = []` this is the
identity, unlike Python's interleaving, which the repository never uses). -/
def pyReplace (pat rep s : List Char) : List Char :=
  raGo pat rep 0 s

/-- The `DEFAULT_REPLACEMENTS` table of src/mus_sort.py, in source order.
`<` and `>` are replaced by braces. -/
def DEFAULT_REPLACEMENTS : List (List Char × List Char) :=
  [ ((": ").toList, (" - ").toList)
  , ((":").toList, (";").toList)
  , (("\"").toList, ("'").toList)
  , (("\\").toList, ("").toList)
  , (("/").toList, ("").toList)
  , (("|").toList, ("").toList)
  , (("*").toList, ("-").toList)
  , (("?").toList, ("❓").toList)
  , (("...").toList, ("…").toList)
  , ((".").toList, ("-").toList)
  , (("<").toList, [ '\x7b' ])
  , ((">").toList, [ '\x7d' ]) ]

/-- Applies a replacement table left to right (the `for r1, r2 in …` loop). -/
def applyReplacements (tbl : List (List Char × List Char)) (s : List Char) : List Char :=
  tbl.foldl (fun acc pr => pyReplace pr.1 pr.2 acc) s

/-- Python `str.expandtabs(tabsize)`: each tab is replaced by spaces up to the
next multiple of `tabsize`; `\n` and `\r` reset the column counter. -/
def expandTabs (tabsize : Nat) : Nat → List Char → List Char
  | _, [] => []
  | col, c :: rest =>
    if c = '\t' then
      if tabsize = 0 then expandTabs tabsize col rest
      else
        let incr := tabsize - col % tabsize
        List.replicate incr ' ' ++ expandTabs tabsize (col + incr) rest
    else
      c :: expandTabs tabsize (if c = '\n' ∨ c = '\r' then 0 else col + 1) rest

/-- `textwrap.TextWrapper._munge_whitespace` with the default flags:
expand tabs (tabsize 8), then turn each whitespace character into `' '`. -/
def munge (s : List Char) : List Char :=
  (expandTabs 8 0 s).map (fun c => if isPySpace c then ' ' else c)

/-- A chunk is "whitespace" to `textwrap` when `chunk.strip()` is falsy,
i.e. every character is whitespace (an empty chunk counts). -/
def isWsChunk (c : List Char) : Bool :=
  c.all isPySpace

/-- Worker for chunk splitting: `curWs` says whether the run being
accumulated (in `cur`, reversed) is whitespace. -/
def toChunksGo (curWs : Bool) (cur : List Char) : List Char → List (List Char)
  | [] => [cur.reverse]
  | c :: rest =>
    if isPySpace c = curWs then toChunksGo curWs (c :: cur) rest
    else cur.reverse :: toChunksGo (isPySpace c) [c] rest

/-- Splits munged text into maximal runs of whitespace / non-whitespace. -/
def toRuns : List Char → List (List Char)
  | [] => []
  | c :: rest => toChunksGo (isPySpace c) [c] rest

/-- A word character of the regex `\w`, restricted to ASCII. -/
def isWordChar (c : Char) : Bool :=
  c.isAlphanum || c = '_'

/-- A "letter" in `textwrap`'s word-splitting regex: `[^\d\W]`. -/
def isRegexLetter (c : Char) : Bool :=
  isWordChar c && ¬ c.isDigit

/-- A "word punctuation" character of `textwrap`'s word-splitting regex:
`[\w!"'&.,?]`. -/
def isWordPunct (c : Char) : Bool :=
  isWordChar c || c = '!' || c = '"' || c = '\'' || c = '&' || c = '.' || c = ','
    || c = '?'

/-- Does `textwrap`'s `wordsep_re` cut the non-whitespace run `run` just
before index `j`?  This is the "hyphenated word" alternative: the character
at `j - 1` is a hyphen whose lookbehind is letter-letter-hyphen or
letter-hyphen-letter-hyphen and whose lookahead is letter, optional hyphen,
letter. -/
def isHyphenCut (run : List Char) (j : Nat) : Bool :=
  run.getD (j - 1) ' ' = '-'
  && (3 ≤ j && isRegexLetter (run.getD (j - 3) ' ') && isRegexLetter (run.getD (j - 2) ' ')
      || 4 ≤ j && isRegexLetter (run.getD (j - 4) ' ') && run.getD (j - 3) ' ' = '-'
          && isRegexLetter (run.getD (j - 2) ' '))
  && (j < run.length && isRegexLetter (run.getD j ' ')
      && (isRegexLetter (run.getD (j + 1) ' ')
          || run.getD (j + 1) ' ' = '-' && isRegexLetter (run.getD (j + 2) ' ')))

/-- The em-dash alternative `(?<=wp)-{2,}(?=\w)` of `wordsep_re` at index `j`
of `run`: the length of the maximal hyphen run starting at `j`, when it has
at least two hyphens, is preceded by a word-punctuation character, and is
followed by a word character. -/
def emDashAt (run : List Char) (j : Nat) : Option Nat :=
  let m := ((run.drop j).takeWhile (· = '-')).length
  if 0 < j ∧ 2 ≤ m ∧ isWordPunct (run.getD (j - 1) ' ')
      ∧ isWordChar (run.getD (j + m) ' ') then
    some m
  else none

/-- Scans for the first index `j` in `[j0, run.length]` where the current word
ends (a hyphenated-word cut or an upcoming em-dash); `run.length` otherwise. -/
def findWordEnd (run : List Char) : Nat → Nat → Nat
  | 0, j => j
  | fuel + 1, j =>
    if run.length ≤ j then run.length
    else if isHyphenCut run j || (emDashAt run j).isSome then j
    else findWordEnd run fuel (j + 1)

/-- Sub-splits a non-whitespace run into the chunks `wordsep_re` yields:
words cut after qualifying hyphens, and em-dash hyphen runs as their own
chunks.  `start` is the scan position; the fuel (`run.length + 1` at the
top level) bounds the recursion, which advances `start` every step. -/
def splitRunGo (run : List Char) : Nat → Nat → List (List Char)
  | 0, _ => []
  | fuel + 1, start =>
    if run.length ≤ start then []
    else
      match emDashAt run start with
      | some m => ((run.drop start).take m) :: splitRunGo run fuel (start + m)
      | none =>
        let j := findWordEnd run (run.length + 1) (start + 1)
        ((run.drop start).take (j - start)) :: splitRunGo run fuel j

/-- Sub-splits a non-whitespace run at every `wordsep_re` cut point. -/
def splitRun (run : List Char) : List (List Char) :=
  splitRunGo run (run.length + 1) 0

/-- The chunk list `textwrap._split` produces for munged text: maximal
whitespace runs, and words sub-split after qualifying hyphens. -/
def toChunks (s : List Char) : List (List Char) :=
  (toRuns s).flatMap (fun r => if isWsChunk r then [r] else splitRun r)

/-- The greedy phase of `textwrap._wrap_chunks`: takes chunks while the
accumulated length stays within `width`; returns (taken, remaining). -/
def greedyTake (width : Nat) : List (List Char) → List (List Char) × List (List Char)
  | [] => ([], [])
  | c :: rest =>
    if c.length ≤ width then
      let tr := greedyTake (width - c.length) rest
      (c :: tr.1, tr.2)
    else ([], c :: rest)

/-- Index of the last occurrence of `c` in the list, if any. -/
def rlastIdx (c : Char) : List Char → Option Nat
  | [] => none
  | x :: xs =>
    match rlastIdx c xs with
    | some i => some (i + 1)
    | none => if x = c then some 0 else none

/-- `textwrap.TextWrapper._handle_long_word` with `break_long_words = True`
and `break_on_hyphens = True`: cuts a chunk longer than the remaining space,
preferring a cut just after the last hyphen that fits. -/
def handleLongWord (width curLen : Nat) (chunk : List Char) : List Char × List Char :=
  let spaceLeft := if width < 1 then 1 else width - curLen
  let e :=
    if chunk.length > spaceLeft then
      match rlastIdx '-' (chunk.take spaceLeft) with
      | some h => if 0 < h ∧ (chunk.take h).any (· ≠ '-') then h + 1 else spaceLeft
      | none => spaceLeft
    else spaceLeft
  (chunk.take e, chunk.drop e)

/-- Drops the single trailing whitespace chunk from the current line, if
present (`if drop_whitespace and cur_line and cur_line[-1].strip() == ''`). -/
def dropLastWs (l : List (List Char)) : List (List Char) :=
  match l.getLast? with
  | some last => if isWsChunk last then l.dropLast else l
  | none => l

/-- The truncation loop of `_wrap_chunks` for the single-line case, on the
reversed current line: pops trailing chunks until the remainder plus the
placeholder fits (ending on a non-whitespace chunk), else emits the
bare (left-stripped) placeholder. -/
def truncPopRev (width : Nat) (pl : List Char) : List (List Char) → List Char
  | [] => pl.dropWhile isPySpace
  | last :: revRest =>
    if ¬ isWsChunk last ∧ ((last :: revRest).reverse.flatten.length + pl.length ≤ width) then
      (last :: revRest).reverse.flatten ++ pl
    else
      truncPopRev width pl revRest

/-- Truncates the current line and appends the placeholder. -/
def truncLine (width : Nat) (pl : List Char) (ls : List (List Char)) : List Char :=
  truncPopRev width pl ls.reverse

/-- Does the remaining chunk list allow a normal (untruncated) final line?
(`not chunks or (drop_whitespace and len(chunks) == 1 and not chunks[0].strip())`.) -/
def restAllowsFullLine : List (List Char) → Bool
  | [] => true
  | [w] => isWsChunk w
  | _ => false

/-- One chunk-gathering step of `_wrap_chunks`: the greedy take, followed by
the long-word split when the next chunk is longer than the whole width.
Returns the gathered line chunks and the remaining chunks. -/
def fillStep (width : Nat) (chunks : List (List Char)) :
    List (List Char) × List (List Char) :=
  let gr := greedyTake width chunks
  match gr.2 with
  | c :: rs =>
    if c.length > width then
      let pr := handleLongWord width gr.1.flatten.length c
      (gr.1 ++ [pr.1], pr.2 :: rs)
    else (gr.1, c :: rs)
  | [] => (gr.1, [])

/-- `textwrap.TextWrapper._wrap_chunks` specialised to `max_lines = 1`,
no indents, `drop_whitespace`/`break_long_words`/`break_on_hyphens` at their
defaults.  The `Nat` fuel bounds the loop: each iteration either emits the
line or consumes at least one chunk / one character, so
`chunks.length + total characters + 1` steps always suffice. -/
def fillLoop (width : Nat) (pl : List Char) : Nat → List (List Char) → List Char
  | 0, _ => []
  | _ + 1, [] => []
  | fuel + 1, c0 :: cs0 =>
    let tr := fillStep width (c0 :: cs0)
    let taken := dropLastWs tr.1
    if taken = [] then fillLoop width pl fuel tr.2
    else if restAllowsFullLine tr.2 ∧ taken.flatten.length ≤ width then
      taken.flatten
    else
      truncLine width pl taken

/-- `textwrap.fill(s, width = width, placeholder = pl, max_lines = 1)` with the
default flags.  Raises `ValueError` (modelled as `.error ()`) when `width ≤ 0`
or when the left-stripped placeholder does not fit in `width`. -/
def pyFill (width : Nat) (pl : List Char) (s : List Char) : Except Unit (List Char) :=
  if width = 0 then .error ()
  else if width < (pl.dropWhile isPySpace).length then .error ()
  else
    let m := munge s
    let chunks := toChunks m
    .ok (fillLoop width pl (chunks.length + m.length + 1) chunks)

/-- The truncation placeholder of src/mus_sort.py's `fix_path`: `"(…)"`. -/
def fixPathPlaceholder : List Char := ("(…)").toList

/-- `fix_path` of src/mus_sort.py: strip, cut at the first `;` and `\`
(and at the first `,` when `strict`), apply `DEFAULT_REPLACEMENTS`, then
collapse to one line of at most `width` characters. -/
def fix_path (width : Nat) (strict : Bool) (name : List Char) : Except Unit (List Char) :=
  let resp := takeUntil '\\' (takeUntil ';' (pyStrip name))
  let resp := if strict then takeUntil ',' resp else resp
  let resp := applyReplacements DEFAULT_REPLACEMENTS resp
  pyFill width fixPathPlaceholder resp

/-- `fix_path` at a width of at least 3 never raises (the placeholder fits);
this unwraps the result, with `[]` as never-taken fallback. -/
def fixPathD (width : Nat) (strict : Bool) (name : List Char) : List Char :=
  match fix_path width strict name with
  | .ok r => r
  | .error _ => []

/-! ### The genre cache of src/mus_sort.py (`genre`, lines 113-117) -/

/-- The mutable-default-argument dictionary `__obj`, passed explicitly:
an association list with Python-dict semantics. -/
abbrev GenreCache := List (List Char × List Char)

/-- Python `dict.get`: the value stored under `key`, if present. -/
def dictGet (m : List (List Char × List Char)) (key : List Char) : Option (List Char) :=
  match m.find? (fun p => p.1 = key) with
  | some p => some p.2
  | none => none

/-- Python `dict[key] = v`: replaces the binding if present, else appends. -/
def dictSet (m : List (List Char × List Char)) (key v : List Char) :
    List (List Char × List Char) :=
  match m with
  | [] => [(key, v)]
  | p :: rest => if p.1 = key then (key, v) :: rest else p :: dictSet rest key v

/-- `genre(artist, possible)` of src/mus_sort.py: if the stored value for
`artist` is missing *or falsy* (`if not __obj.get(artist)`), store `possible`;
return the stored value.  Returns the value and the updated cache. -/
def genre (c : GenreCache) (artist possible : List Char) : List Char × GenreCache :=
  match dictGet c artist with
  | some v => if v = [] then (possible, dictSet c artist possible) else (v, c)
  | none => (possible, dictSet c artist possible)

/-! ### `MusicFolder.autopath` of src/mus_sort.py (lines 168-182) -/

/-- The classified (genre, artist, album, year) of a `MusicFolder`, as left by
`__init__`: each field is `none` when no inspected track carried the tag
(the classification loop only ever assigns non-`None` values). -/
structure FolderClass where
  genre : Option (List Char)
  artist : Option (List Char)
  album : Option (List Char)
  year : Option (List Char)
deriving DecidableEq

/-- Python `x or default` on an optional string: the string when non-empty,
else the default. -/
def pyOr (o : Option (List Char)) (dflt : List Char) : List Char :=
  match o with
  | some s => if s = [] then dflt else s
  | none => dflt

/-- `autopath` of src/mus_sort.py, minus the filesystem side effects: computes
the three relative path components `[genre, artist, album]` (the album
component is `"year - album"` when the sanitized year is non-empty) and the
updated genre cache.  `fix_path` is applied at its default width 50, where it
cannot raise (hence `fixPathD`); `root / a / b / c` is modelled as the
component list.  (pathlib would drop an empty component from the real path;
no claim below evaluates one.) -/
def autopath (c : GenreCache) (fc : FolderClass) :
    List (List Char) × GenreCache :=
  let artist := fixPathD 50 false (pyOr fc.artist ("UNKNOWN_ARTIST").toList)
  let album := fixPathD 50 false (pyOr fc.album ("Singles").toList)
  let year := fixPathD 50 false (pyOr fc.year [])
  let genre0 := fixPathD 50 true
    (match fc.genre with
     | some g => if g ≠ [] ∧ g ≠ ("Other").toList then g else ("UNKNOWN_GENRE").toList
     | none => ("UNKNOWN_GENRE").toList)
  let gc := genre c artist genre0
  let albumC := if year ≠ [] then year ++ (" - ").toList ++ album else album
  ([gc.1, artist, albumC], gc.2)

/-! ### `MusicFolder.rename_file` of src/mus_sort.py (lines 221-239) -/

/-- Python `str.zfill(n)`: left-pads with `'0'` to length `n`, keeping a
leading sign in front of the padding. -/
def pyZfill (n : Nat) (s : List Char) : List Char :=
  match s with
  | c :: rest =>
    if c = '+' ∨ c = '-' then c :: List.replicate (n - s.length) '0' ++ rest
    else List.replicate (n - s.length) '0' ++ s
  | [] => List.replicate n '0'

/-- Python f-string rendering of an optional string: `None` renders as the
four characters `"None"`. -/
def pyStr (o : Option (List Char)) : List Char :=
  match o with
  | some s => s
  | none => ("None").toList

/-- `pathlib.PurePath.suffix`: the substring from the last dot, when that dot
is neither the first nor the last character of the name. -/
def pySuffix (name : List Char) : List Char :=
  match rlastIdx '.' name with
  | some i => if 0 < i ∧ i + 1 < name.length then name.drop i else []
  | none => []

/-- The target file name computed by `rename_file`:
`fix_path(f"{(t.track or '').zfill(2)} - {t.title}") + p.suffix`.
`t.track` and `t.title` are the raw tag strings (`None` when absent). -/
def rename_file_target (track title : Option (List Char)) (suffix : List Char) :
    List Char :=
  fixPathD 50 false
      (pyZfill 2 (pyOr track []) ++ (" - ").toList ++ pyStr title)
    ++ suffix

/-- One `rename_file` call on a file currently named `name` (basename): the
performed rename, or `none` when the computed name equals the current name
(`if p.name != target.name`), in which case no filesystem operation happens.
The suffix is taken from the current name, as `p.suffix` is. -/
def rename_file (track title : Option (List Char)) (name : List Char) :
    Option (List Char) :=
  if name = rename_file_target track title (pySuffix name) then none
  else some (rename_file_target track title (pySuffix name))

/-! ### One reorganizer pass over a sequence of music folders
(`sort_dir` + `rename_folder`, successful-rename path) -/

/-- The run-relevant state of one music folder: its current path (component
list) and its classified tags.  A second run reconstructs `MusicFolder` from
the files' tags, which moving the folder does not change, so `cls` is
carried unchanged. -/
structure FolderState where
  path : List (List Char)
  cls : FolderClass
deriving DecidableEq

/-- `rename_folder` on the successful-rename path: computes the target via
`autopath` and moves the folder there (`folder.rename(target)`).  Collisions
and permission errors are modelled separately (see `rename_folder_step`). -/
def renameFolderOk (root : List (List Char)) (c : GenreCache) (fs : FolderState) :
    GenreCache × FolderState :=
  let ap := autopath c fs.cls
  (ap.2, { fs with path := root ++ ap.1 })

/-- One run of the reorganizer over the music folders it visits, in
visitation order, threading the genre cache (fresh at the start of a run). -/
def runFolders (root : List (List Char)) (c : GenreCache) :
    List FolderState → GenreCache × List FolderState
  | [] => (c, [])
  | f :: rest =>
    let step := renameFolderOk root c f
    let tail := runFolders root step.1 rest
    (tail.1, step.2 :: tail.2)

/-! ### The src/src/musort/tools rewrite: `cache.genre`, `MusicFile` naming -/

/-- The rewrite's `cache._genre` dictionary: artist name (lower-cased key) to
genre, whose values may be `None`. -/
abbrev GenreCache' := List (List Char × Option (List Char))

/-- Python `artist in cls._genre` / `cls._genre[artist]` on the rewrite's
cache: lookup by key presence (not truthiness). -/
def dictGet' (m : List (List Char × Option (List Char))) (key : List Char) :
    Option (Option (List Char)) :=
  match m.find? (fun p => p.1 = key) with
  | some p => some p.2
  | none => none

/-- `cls._genre[artist] = default` on the rewrite's cache. -/
def dictSet' (m : List (List Char × Option (List Char))) (key : List Char)
    (v : Option (List Char)) : List (List Char × Option (List Char)) :=
  match m with
  | [] => [(key, v)]
  | p :: rest => if p.1 = key then (key, v) :: rest else p :: dictSet' rest key v

/-- Python `str.lower()`, restricted to ASCII case mapping. -/
def pyLower (s : List Char) : List Char :=
  s.map Char.toLower

/-- `cache.genre(artist, default)` of src/src/musort/tools/__init__.py
(lines 45-54): a pass-through when `--single-genre` is disabled; otherwise
the artist key is lower-cased, a present binding is returned as is, and an
absent key stores and returns `default`. -/
def cache_genre (singleGenre : Bool) (st : GenreCache') (artist : List Char)
    (dflt : Option (List Char)) : Option (List Char) × GenreCache' :=
  if ¬ singleGenre then (dflt, st)
  else
    let a := pyLower artist
    match dictGet' st a with
    | some v => (v, st)
    | none => (dflt, dictSet' st a dflt)

/-- The truncation placeholder of the rewrite's `prepare_component`: the
five-character mojibake literal `"(â€¦)"`. -/
def preparePlaceholder : List Char := ['(', 'â', '€', '¦', ')']

/-- `MusicFile.prepare_component(tag, default, max_size)` of the rewrite
(lines 118-130): a falsy tag yields the default; otherwise the text before
the first `;` is stripped and collapsed to one line of at most `max_size`
characters.  (The `resp.replace(s0, s1)` loop in the source discards its
results — the replacement table is a no-op there, embedded as such.)
`max_size = 70` at every call site, so the fill cannot raise. -/
def prepare_component (tag : Option (List Char)) (dflt : List Char)
    (maxSize : Nat := 70) : List Char :=
  match tag with
  | none => dflt
  | some t =>
    if t = [] then dflt
    else
      match pyFill maxSize preparePlaceholder (pyStrip (takeUntil ';' t)) with
      | .ok r => r
      | .error _ => []

/-- The classified fields of the rewrite's `MusicFile` used by its namers. -/
structure MusicFile where
  genre : Option (List Char)
  artist : Option (List Char)
  album : Option (List Char)
  year : Option (List Char)
  title : Option (List Char)
  track : Option Nat
deriving DecidableEq

/-- `MusicFile.get_new_dir` of the rewrite (lines 132-138): the relative
component list `[genre, artist, album]` under the target root, with the
year prefixed to the album when present. -/
def get_new_dir (f : MusicFile) : List (List Char) :=
  let genre := prepare_component f.genre ("UNKNOWN_GENRE").toList
  let artist := prepare_component f.artist ("UNKNOWN_ARTIST").toList
  let album := prepare_component f.album ("UNKNOWN_ALBUM").toList
  let album :=
    match f.year with
    | some y =>
      if y ≠ [] then
        prepare_component (some y) ("UNKNOWN").toList ++ (" - ").toList ++ album
      else album
    | none => album
  [genre, artist, album]

/-- Decimal rendering of a track number, as Python `str(int)` does. -/
def natRepr (n : Nat) : List Char :=
  (Nat.repr n).toList

/-- `MusicFile.get_new_name` of the rewrite (lines 140-143):
`(str(track) if track else "").zfill(2) + " - " + sanitized title`; a `0` or
absent track is falsy, so the empty string is zero-filled to `"00"`.  No
file extension is appended here. -/
def get_new_name (f : MusicFile) : List Char :=
  pyZfill 2 (match f.track with
             | some n => if n ≠ 0 then natRepr n else []
             | none => [])
    ++ (" - ").toList
    ++ prepare_component f.title ("UNKNOWN_TRACK").toList

/-! ### Directory trees: `cleanup`, `sort_root`/`sort_dir` (src/mus_sort.py) -/

/-- A directory entry: a file or a directory with its entries, in
`iterdir` order. -/
inductive FS where
  | file (name : List Char)
  | dir (name : List Char) (entries : List FS)

/-- `INVALID_DIRS` of src/mus_sort.py. -/
def INVALID_DIRS : List (List Char) :=
  [(".git").toList, ("__pycache__").toList, ("downloading").toList, ("iTunes").toList]

/-- `MUSFILE_SUFFIXES` of src/mus_sort.py. -/
def MUSFILE_SUFFIXES : List (List Char) :=
  [(".mp3").toList, (".wav").toList, (".flac").toList, (".aiff").toList,
   (".aifc").toList, (".aif").toList, (".afc").toList, (".oga").toList,
   (".ogg").toList, (".opus").toList, (".wma").toList, (".m4b").toList,
   (".m4a").toList, (".mp4").toList]

/-- `is_valid_dir` on a directory entry: directories whose name is not in
`INVALID_DIRS` (the `is_dir()` half is the `FS.dir` constructor). -/
def isValidDir : FS → Bool
  | .dir n _ => ¬ INVALID_DIRS.contains n
  | .file _ => false

/-- `is_music_folder(dir)`: some entry (file *or* directory — the source
checks `item.suffix` on every `iterdir` item) has a music suffix. -/
def is_music_folder (entries : List FS) : Bool :=
  entries.any fun e =>
    match e with
    | .file n => MUSFILE_SUFFIXES.contains (pyLower (pySuffix n))
    | .dir n _ => MUSFILE_SUFFIXES.contains (pyLower (pySuffix n))

/-- `cleanup(root)` of src/mus_sort.py (lines 323-330) as a transformer of
the directory's entries: it recurses into every valid subdirectory and
performs no other operation — the function body contains no `rmdir` or
`unlink` call, so no entry is ever removed. -/
def cleanup : List FS → List FS
  | [] => []
  | .file n :: rest => .file n :: cleanup rest
  | .dir n es :: rest =>
    (if ¬ INVALID_DIRS.contains n then .dir n (cleanup es) else .dir n es)
      :: cleanup rest

/-- The directories on which `sort_dir` runs its classification step
(`is_music_folder` check and the rename work), when recursing from the
directory at path `p` with the given entries: post-order — for each valid
subdirectory, first its own descendants, then the subdirectory itself if it
directly contains music. -/
def sortDirVisited (p : List (List Char)) : List FS → List (List (List Char))
  | [] => []
  | .file _ :: rest => sortDirVisited p rest
  | .dir n es :: rest =>
    (if ¬ INVALID_DIRS.contains n then
      sortDirVisited (p ++ [n]) es ++ (if is_music_folder es then [p ++ [n]] else [])
     else []) ++ sortDirVisited p rest

/-- The directories `sort_root(root, dir, …)` classifies/renames: when a
rename mode is selected it calls `sort_dir` on every valid subdirectory of
`dir` — never on `dir` itself. -/
def sortRootVisited (renameFiles renameDirs : Bool) (p : List (List Char))
    (entries : List FS) : List (List (List Char)) :=
  if renameFiles || renameDirs then sortDirVisited p entries else []

/-! ### `rename_folder` exception handling (src/mus_sort.py lines 294-320) -/

/-- An entry of the error ledger (`Errors = list[tuple[str | None, ...]]`):
a tuple of optional strings. -/
abbrev ErrEntry := List (Option (List Char))

/-- An error propagating out of `rename_folder` (a re-raised Python
exception). -/
inductive PyError where
  | fileExists
  | permission (winerror : Option Int)

/-- What `folder.rename(target)` raised, as decided by the filesystem:
`FileExistsError` when the computed target path already exists, else a
`PermissionError` (carrying Windows' `winerror` when the OS provides one)
when the directory is locked, else success. -/
inductive RenameRaise where
  | ok
  | fileExists
  | permissionError (winerror : Option Int)

/-- The state `rename_folder` can change: whether the source directory (and
its files) still exists at its original place, and whether a directory
already occupies the computed target. -/
structure MoveWorld where
  srcPresent : Bool
  srcFiles : List (List Char)
  targetOccupied : Bool
deriving DecidableEq

/-- The outcome of the `folder.rename(target)` call inside `rename_folder`
for a world `w`, with `lock` injecting an environmental directory lock. -/
def attemptRename (w : MoveWorld) (lock : Option (Option Int)) : RenameRaise :=
  if w.targetOccupied then .fileExists
  else match lock with
       | some win => .permissionError win
       | none => .ok

/-- `rename_folder(root, folder, errs, remove_duplicates)` after the
`autopath` computation, given the raise behaviour of the underlying rename:
* success: the folder is moved (modelled on `MoveWorld` as the source
  leaving its place; the path change itself is `renameFolderOk`);
* `FileExistsError`: re-raised when `errs is None`; with remove-duplicates
  the source's files are unlinked and the source directory removed; else
  `(err.__class__.__name__, folder.artist, folder.album)` is appended and
  nothing is touched;
* `PermissionError`: re-raised unless `winerror == 5` and a ledger exists,
  in which case the entry is appended and the move is skipped. -/
def rename_folder_handle (r : RenameRaise) (errs : Option (List ErrEntry))
    (removeDuplicates : Bool) (artist album : Option (List Char)) (w : MoveWorld) :
    Except PyError (MoveWorld × Option (List ErrEntry)) :=
  match r with
  | .ok => .ok ({ w with srcPresent := false, srcFiles := [] }, errs)
  | .fileExists =>
    match errs with
    | none => .error .fileExists
    | some l =>
      if removeDuplicates then
        .ok ({ w with srcPresent := false, srcFiles := [] }, some l)
      else
        .ok (w, some (l ++ [[some ("FileExistsError").toList, artist, album]]))
  | .permissionError win =>
    if win ≠ some 5 ∨ errs = none then .error (.permission win)
    else
      .ok (w, (errs.map (fun l => l ++ [[some ("PermissionError").toList, artist, album]])))

/-- `rename_folder`'s move step on a world, combining the filesystem's raise
decision with the exception handlers. -/
def rename_folder_step (w : MoveWorld) (lock : Option (Option Int))
    (errs : Option (List ErrEntry)) (removeDuplicates : Bool)
    (artist album : Option (List Char)) :
    Except PyError (MoveWorld × Option (List ErrEntry)) :=
  rename_folder_handle (attemptRename w lock) errs removeDuplicates artist album w

/-! ### `sort_dir`'s tag-read failure handler (src/mus_sort.py lines 280-286) -/

/-- What `sort_dir` does with the ledger when `MusicFolder(dir)` raises a
`TinyTagException`: the guard is `if errs:` — Python truthiness on the list —
so the record is appended only when the ledger is already non-empty. -/
def handleTagError (errs : List ErrEntry) (errName dirPath : List Char) :
    List ErrEntry :=
  if errs ≠ [] then errs ++ [[some errName, some dirPath]] else errs

/-! ## Lemmas about the sanitizer -/

theorem mem_raGo (pat rep : List Char) :
    ∀ (s : List Char) (n : Nat) (c : Char), c ∈ raGo pat rep n s → c ∈ rep ∨ c ∈ s := by
  intro s
  induction s with
  | nil =>
    intro n c h
    cases n <;> simp [raGo] at h
  | cons x rest ih =>
    intro n c h
    cases n with
    | zero =>
      rw [raGo] at h
      split at h
      · rcases List.mem_append.mp h with h1 | h1
        · exact Or.inl h1
        · rcases ih _ _ h1 with h2 | h2
          · exact Or.inl h2
          · exact Or.inr (List.mem_cons_of_mem _ h2)
      · rcases List.mem_cons.mp h with h1 | h1
        · exact Or.inr (h1 ▸ List.mem_cons_self _ _)
        · rcases ih _ _ h1 with h2 | h2
          · exact Or.inl h2
          · exact Or.inr (List.mem_cons_of_mem _ h2)
    | succ m =>
      rw [raGo] at h
      rcases ih _ _ h with h2 | h2
      · exact Or.inl h2
      · exact Or.inr (List.mem_cons_of_mem _ h2)

theorem raGo_single_elim (d : Char) (rep : List Char) (hd : d ∉ rep) :
    ∀ (s : List Char) (n : Nat), d ∉ raGo [d] rep n s := by
  intro s
  induction s with
  | nil =>
    intro n
    cases n <;> simp [raGo]
  | cons x rest ih =>
    intro n
    cases n with
    | zero =>
      rw [raGo]
      split
      · intro hmem
        rcases List.mem_append.mp hmem with h1 | h1
        · exact hd h1
        · exact ih 0 h1
      · next h =>
        intro hmem
        rcases List.mem_cons.mp hmem with h1 | h1
        · apply h
          refine ⟨by simp, ?_⟩
          simp [List.isPrefixOf, h1]
        · exact ih 0 h1
    | succ m =>
      rw [raGo]
      exact ih m

theorem pyReplace_pres (pat rep s : List Char) (c : Char) (h1 : c ∉ s)
    (h2 : c ∉ rep) : c ∉ pyReplace pat rep s := by
  intro hc
  rcases mem_raGo pat rep s 0 c hc with h | h
  · exact h2 h
  · exact h1 h

theorem applyReplacements_pres (c : Char) :
    ∀ (tbl : List (List Char × List Char)) (s : List Char),
      c ∉ s → (∀ pr ∈ tbl, c ∉ pr.2) → c ∉ applyReplacements tbl s := by
  intro tbl
  induction tbl with
  | nil =>
    intro s h1 _
    simpa [applyReplacements] using h1
  | cons pr rest ih =>
    intro s h1 h2
    have step : applyReplacements (pr :: rest) s
        = applyReplacements rest (pyReplace pr.1 pr.2 s) := rfl
    rw [step]
    refine ih _ ?_ ?_
    · exact pyReplace_pres _ _ _ _ h1 (h2 pr (List.mem_cons_self _ _))
    · intro q hq
      exact h2 q (List.mem_cons_of_mem _ hq)

/-- A table eliminates `d` when some entry replaces the single-character
pattern `[d]` by a `d`-free string and no later entry reintroduces `d`. -/
def elimWitness (d : Char) : List (List Char × List Char) → Bool
  | [] => false
  | (pat, rep) :: rest =>
    (pat = [d] && rep.all (· ≠ d) && rest.all (fun pr => pr.2.all (· ≠ d)))
      || elimWitness d rest

theorem elim_of_witness (d : Char) :
    ∀ (tbl : List (List Char × List Char)), elimWitness d tbl = true →
      ∀ s, d ∉ applyReplacements tbl s := by
  intro tbl
  induction tbl with
  | nil => simp [elimWitness]
  | cons pr rest ih =>
    intro h s
    obtain ⟨pat, rep⟩ := pr
    rw [elimWitness] at h
    rw [Bool.or_eq_true] at h
    have step : applyReplacements ((pat, rep) :: rest) s
        = applyReplacements rest (pyReplace pat rep s) := rfl
    rw [step]
    rcases h with h | h
    · simp only [Bool.and_eq_true, decide_eq_true_eq, List.all_eq_true] at h
      obtain ⟨⟨hpat, hrep⟩, hrest⟩ := h
      have hrep' : d ∉ rep := fun hm => hrep d hm rfl
      refine applyReplacements_pres d rest _ ?_ ?_
      · subst hpat
        exact raGo_single_elim d rep hrep' s 0
      · intro q hq hm
        exact hrest q hq d hm rfl
    · exact ih h _

/-- The characters the spec's "illegal table" names, plus the period (every
period is replaced, which also rules the `"..."` ellipsis out). -/
def illegalChars : List Char :=
  [':', '"', '/', '\\', '|', '*', '?', '<', '>', '.']

theorem applyDefault_no_illegal (c : Char) (hc : c ∈ illegalChars) (s : List Char) :
    c ∉ applyReplacements DEFAULT_REPLACEMENTS s := by
  have hw : elimWitness c DEFAULT_REPLACEMENTS = true := by
    rcases (by simpa [illegalChars] using hc :
        c = ':' ∨ c = '"' ∨ c = '/' ∨ c = '\\' ∨ c = '|' ∨ c = '*' ∨ c = '?'
          ∨ c = '<' ∨ c = '>' ∨ c = '.') with
      h | h | h | h | h | h | h | h | h | h <;> subst h <;> decide
  exact elim_of_witness c DEFAULT_REPLACEMENTS hw s

theorem mem_expandTabs (ts : Nat) :
    ∀ (s : List Char) (col : Nat) (c : Char), c ∈ expandTabs ts col s → c = ' ' ∨ c ∈ s := by
  intro s
  induction s with
  | nil =>
    intro col c h
    simp [expandTabs] at h
  | cons x rest ih =>
    intro col c h
    rw [expandTabs] at h
    split at h
    · split at h
      · rcases ih _ _ h with h2 | h2
        · exact Or.inl h2
        · exact Or.inr (List.mem_cons_of_mem _ h2)
      · rcases List.mem_append.mp h with h2 | h2
        · exact Or.inl (List.eq_of_mem_replicate h2)
        · rcases ih _ _ h2 with h3 | h3
          · exact Or.inl h3
          · exact Or.inr (List.mem_cons_of_mem _ h3)
    · rcases List.mem_cons.mp h with h2 | h2
      · exact Or.inr (h2 ▸ List.mem_cons_self _ _)
      · rcases ih _ _ h2 with h3 | h3
        · exact Or.inl h3
        · exact Or.inr (List.mem_cons_of_mem _ h3)

theorem mem_munge (s : List Char) (c : Char) (h : c ∈ munge s) : c = ' ' ∨ c ∈ s := by
  rw [munge] at h
  rcases List.mem_map.mp h with ⟨a, ha, hc⟩
  by_cases hsp : isPySpace a
  · simp [hsp] at hc
    exact Or.inl hc.symm
  · simp [hsp] at hc
    subst hc
    exact mem_expandTabs 8 s 0 a ha

theorem mem_toChunksGo :
    ∀ (l : List Char) (ws : Bool) (cur : List Char) (ch : List Char),
      ch ∈ toChunksGo ws cur l → ∀ c ∈ ch, c ∈ cur ∨ c ∈ l := by
  intro l
  induction l with
  | nil =>
    intro ws cur ch h c hc
    simp [toChunksGo] at h
    subst h
    exact Or.inl (List.mem_reverse.mp hc)
  | cons x rest ih =>
    intro ws cur ch h c hc
    rw [toChunksGo] at h
    split at h
    · rcases ih _ _ _ h c hc with h2 | h2
      · rcases List.mem_cons.mp h2 with h3 | h3
        · exact Or.inr (h3 ▸ List.mem_cons_self _ _)
        · exact Or.inl h3
      · exact Or.inr (List.mem_cons_of_mem _ h2)
    · rcases List.mem_cons.mp h with h2 | h2
      · subst h2
        exact Or.inl (List.mem_reverse.mp hc)
      · rcases ih _ _ _ h2 c hc with h3 | h3
        · rcases List.mem_cons.mp h3 with h4 | h4
          · exact Or.inr (h4 ▸ List.mem_cons_self _ _)
          · simp at h4
        · exact Or.inr (List.mem_cons_of_mem _ h3)

theorem mem_toRuns (s : List Char) (ch : List Char) (h : ch ∈ toRuns s) :
    ∀ c ∈ ch, c ∈ s := by
  intro c hc
  match s, h with
  | x :: rest, h =>
    rcases mem_toChunksGo rest (isPySpace x) [x] ch h c hc with h2 | h2
    · simp at h2
      exact h2 ▸ List.mem_cons_self _ _
    · exact List.mem_cons_of_mem _ h2

theorem mem_splitRunGo (run : List Char) :
    ∀ (fuel start : Nat) (ch : List Char), ch ∈ splitRunGo run fuel start →
      ∀ c ∈ ch, c ∈ run := by
  intro fuel
  induction fuel with
  | zero =>
    intro start ch h
    simp [splitRunGo] at h
  | succ n ih =>
    intro start ch h c hc
    rw [splitRunGo] at h
    split at h
    · simp at h
    · split at h
      · rcases List.mem_cons.mp h with h2 | h2
        · subst h2
          exact List.drop_subset _ _ (List.take_subset _ _ hc)
        · exact ih _ _ h2 c hc
      · rcases List.mem_cons.mp h with h2 | h2
        · subst h2
          exact List.drop_subset _ _ (List.take_subset _ _ hc)
        · exact ih _ _ h2 c hc

theorem mem_toChunks (s : List Char) (ch : List Char) (h : ch ∈ toChunks s) :
    ∀ c ∈ ch, c ∈ s := by
  intro c hc
  rw [toChunks] at h
  rcases List.mem_flatMap.mp h with ⟨r, hr, hch⟩
  have hrs : ∀ x ∈ r, x ∈ s := mem_toRuns s r hr
  split at hch
  · simp at hch
    exact hrs c (hch ▸ hc)
  · exact hrs c (mem_splitRunGo r _ _ ch hch c hc)

theorem greedyTake_append :
    ∀ (l : List (List Char)) (w : Nat), (greedyTake w l).1 ++ (greedyTake w l).2 = l := by
  intro l
  induction l with
  | nil =>
    intro w
    simp [greedyTake]
  | cons c rest ih =>
    intro w
    rw [greedyTake]
    split
    · simpa using ih (w - c.length)
    · simp

theorem mem_dropLastWs (l : List (List Char)) (ch : List Char)
    (h : ch ∈ dropLastWs l) : ch ∈ l := by
  rw [dropLastWs] at h
  split at h
  · split at h
    · exact List.dropLast_subset l h
    · exact h
  · exact h

theorem mem_truncPopRev (w : Nat) (pl : List Char) :
    ∀ (ls : List (List Char)) (c : Char), c ∈ truncPopRev w pl ls →
      (∃ ch ∈ ls, c ∈ ch) ∨ c ∈ pl := by
  intro ls
  induction ls with
  | nil =>
    intro c h
    rw [truncPopRev] at h
    exact Or.inr (List.dropWhile_subset _ h)
  | cons last revRest ih =>
    intro c h
    rw [truncPopRev] at h
    split at h
    · rcases List.mem_append.mp h with h2 | h2
      · rcases List.mem_flatten.mp h2 with ⟨ch, hch, hc⟩
        exact Or.inl ⟨ch, List.mem_reverse.mp hch, hc⟩
      · exact Or.inr h2
    · rcases ih c h with ⟨ch, hch, hc⟩ | h2
      · exact Or.inl ⟨ch, List.mem_cons_of_mem _ hch, hc⟩
      · exact Or.inr h2

theorem truncPopRev_length (w : Nat) (pl : List Char)
    (hpl : (pl.dropWhile isPySpace).length ≤ w) :
    ∀ (ls : List (List Char)), (truncPopRev w pl ls).length ≤ w := by
  intro ls
  induction ls with
  | nil =>
    rw [truncPopRev]
    exact hpl
  | cons last revRest ih =>
    rw [truncPopRev]
    split
    · next hcond =>
      rw [List.length_append]
      exact hcond.2
    · exact ih

theorem handleLongWord_take (w n : Nat) (chunk : List Char) :
    ∀ x ∈ (handleLongWord w n chunk).1, x ∈ chunk := by
  intro x hx
  rw [handleLongWord] at hx
  exact List.take_subset _ _ hx

theorem handleLongWord_drop (w n : Nat) (chunk : List Char) :
    ∀ x ∈ (handleLongWord w n chunk).2, x ∈ chunk := by
  intro x hx
  rw [handleLongWord] at hx
  exact List.drop_subset _ _ hx

theorem fillStep_taken_chars (w : Nat) (chunks : List (List Char)) :
    ∀ ch ∈ (fillStep w chunks).1, ∀ x ∈ ch, ∃ ch0 ∈ chunks, x ∈ ch0 := by
  intro ch hch x hx
  have hgappend : (greedyTake w chunks).1 ++ (greedyTake w chunks).2 = chunks :=
    greedyTake_append _ _
  have hmem1 : ∀ y ∈ (greedyTake w chunks).1, y ∈ chunks := by
    intro y hy
    rw [← hgappend]
    exact List.mem_append.mpr (Or.inl hy)
  have hmem2 : ∀ y ∈ (greedyTake w chunks).2, y ∈ chunks := by
    intro y hy
    rw [← hgappend]
    exact List.mem_append.mpr (Or.inr hy)
  rw [fillStep] at hch
  split at hch
  · next cc rs heq =>
    split at hch
    · rcases List.mem_append.mp hch with h2 | h2
      · exact ⟨ch, hmem1 ch h2, hx⟩
      · simp at h2
        refine ⟨cc, hmem2 cc (by rw [heq]; exact List.mem_cons_self _ _), ?_⟩
        exact handleLongWord_take _ _ _ x (h2 ▸ hx)
    · exact ⟨ch, hmem1 ch hch, hx⟩
  · exact ⟨ch, hmem1 ch hch, hx⟩

theorem fillStep_rest_chars (w : Nat) (chunks : List (List Char)) :
    ∀ ch ∈ (fillStep w chunks).2, ∀ x ∈ ch, ∃ ch0 ∈ chunks, x ∈ ch0 := by
  intro ch hch x hx
  have hgappend : (greedyTake w chunks).1 ++ (greedyTake w chunks).2 = chunks :=
    greedyTake_append _ _
  have hmem2 : ∀ y ∈ (greedyTake w chunks).2, y ∈ chunks := by
    intro y hy
    rw [← hgappend]
    exact List.mem_append.mpr (Or.inr hy)
  rw [fillStep] at hch
  split at hch
  · next cc rs heq =>
    split at hch
    · rcases List.mem_cons.mp hch with h2 | h2
      · refine ⟨cc, hmem2 cc (by rw [heq]; exact List.mem_cons_self _ _), ?_⟩
        exact handleLongWord_drop _ _ _ x (h2 ▸ hx)
      · exact ⟨ch, hmem2 ch (by rw [heq]; exact List.mem_cons_of_mem _ h2), hx⟩
    · exact ⟨ch, hmem2 ch (heq ▸ hch), hx⟩
  · simp at hch

theorem fillLoop_chars (w : Nat) (pl : List Char) :
    ∀ (fuel : Nat) (chunks : List (List Char)) (c : Char),
      c ∈ fillLoop w pl fuel chunks → (∃ ch ∈ chunks, c ∈ ch) ∨ c ∈ pl := by
  intro fuel
  induction fuel with
  | zero =>
    intro chunks c h
    simp [fillLoop] at h
  | succ n ih =>
    intro chunks c h
    match chunks with
    | [] => simp [fillLoop] at h
    | c0 :: cs0 =>
      rw [fillLoop] at h
      split at h
      · rcases ih _ c h with ⟨ch, hch, hc⟩ | h2
        · exact Or.inl (fillStep_rest_chars w (c0 :: cs0) ch hch c hc)
        · exact Or.inr h2
      · split at h
        · rcases List.mem_flatten.mp h with ⟨ch, hch, hc⟩
          exact Or.inl (fillStep_taken_chars w (c0 :: cs0) ch (mem_dropLastWs _ _ hch) c hc)
        · rw [truncLine] at h
          rcases mem_truncPopRev w pl _ c h with ⟨ch, hch, hc⟩ | h2
          · exact Or.inl (fillStep_taken_chars w (c0 :: cs0) ch
              (mem_dropLastWs _ _ (List.mem_reverse.mp hch)) c hc)
          · exact Or.inr h2

theorem fillLoop_length (w : Nat) (pl : List Char)
    (hpl : (pl.dropWhile isPySpace).length ≤ w) :
    ∀ (fuel : Nat) (chunks : List (List Char)),
      (fillLoop w pl fuel chunks).length ≤ w := by
  intro fuel
  induction fuel with
  | zero =>
    intro chunks
    simp [fillLoop]
  | succ n ih =>
    intro chunks
    match chunks with
    | [] =>
      simp [fillLoop]
    | c0 :: cs0 =>
      rw [fillLoop]
      split
      · exact ih _
      · split
        · next hcond => exact hcond.2
        · rw [truncLine]
          exact truncPopRev_length w pl hpl _

theorem pyFill_ok (width : Nat) (pl s : List Char) (h0 : width ≠ 0)
    (hpl : (pl.dropWhile isPySpace).length ≤ width) :
    pyFill width pl s
      = .ok (fillLoop width pl ((toChunks (munge s)).length + (munge s).length + 1)
          (toChunks (munge s))) := by
  rw [pyFill, if_neg h0, if_neg (Nat.not_lt.mpr hpl)]

theorem pyFill_safe (width : Nat) (t : List Char) (h3 : 3 ≤ width) :
    ∃ r, pyFill width fixPathPlaceholder (applyReplacements DEFAULT_REPLACEMENTS t) = .ok r
      ∧ r.length ≤ width ∧ ∀ c ∈ r, c ∉ illegalChars := by
  have hpl : ((fixPathPlaceholder).dropWhile isPySpace).length ≤ width := by
    have h : ((fixPathPlaceholder).dropWhile isPySpace).length = 3 := by decide
    omega
  refine ⟨_, pyFill_ok width fixPathPlaceholder _ (by omega) hpl, ?_, ?_⟩
  · exact fillLoop_length width fixPathPlaceholder hpl _ _
  · intro c hc hcIll
    rcases fillLoop_chars width fixPathPlaceholder _ _ c hc with ⟨ch, hch, hcch⟩ | hpl2
    · rcases mem_munge _ c (mem_toChunks _ ch hch c hcch) with hsp | hin
      · subst hsp
        revert hcIll
        decide
      · exact applyDefault_no_illegal c hcIll t hin
    · have : ∀ d ∈ illegalChars, d ∉ fixPathPlaceholder := by decide
      exact this c hcIll hpl2

theorem fix_path_safe (width : Nat) (strict : Bool) (name : List Char) (h3 : 3 ≤ width) :
    ∃ r, fix_path width strict name = .ok r
      ∧ r.length ≤ width ∧ ∀ c ∈ r, c ∉ illegalChars := by
  rw [fix_path]
  exact pyFill_safe width _ h3

theorem fixPathD_eq (width : Nat) (strict : Bool) (name : List Char) (h3 : 3 ≤ width) :
    fix_path width strict name = .ok (fixPathD width strict name) := by
  obtain ⟨r, hr, -, -⟩ := fix_path_safe width strict name h3
  rw [fixPathD, hr]

theorem fixPathD_no_illegal (width : Nat) (strict : Bool) (name : List Char)
    (h3 : 3 ≤ width) : ∀ c ∈ fixPathD width strict name, c ∉ illegalChars := by
  obtain ⟨r, hr, -, hc⟩ := fix_path_safe width strict name h3
  rw [fixPathD, hr]
  exact hc

/-! ## Lemmas about file suffixes and the run's fixed point -/

theorem rlastIdx_eq_none (c : Char) :
    ∀ (l : List Char), c ∉ l → rlastIdx c l = none := by
  intro l
  induction l with
  | nil =>
    intro _
    rfl
  | cons x xs ih =>
    intro h
    rw [rlastIdx, ih (fun hm => h (List.mem_cons_of_mem _ hm))]
    rw [if_neg (fun he : x = c => h (by rw [he]; exact List.mem_cons_self _ _))]

theorem rlastIdx_none_not_mem (c : Char) :
    ∀ (l : List Char), rlastIdx c l = none → c ∉ l := by
  intro l
  induction l with
  | nil =>
    intro _
    simp
  | cons x xs ih =>
    intro h
    rw [rlastIdx] at h
    revert h
    split
    · intro h
      cases h
    · next hnone =>
      intro h hm
      rcases List.mem_cons.mp hm with h2 | h2
      · rw [if_pos h2.symm] at h
        cases h
      · exact ih hnone h2

theorem rlastIdx_spec (c : Char) :
    ∀ (l : List Char) (i : Nat), rlastIdx c l = some i →
      i < l.length ∧ l.drop i = c :: l.drop (i + 1) ∧ c ∉ l.drop (i + 1) := by
  intro l
  induction l with
  | nil =>
    intro i h
    simp [rlastIdx] at h
  | cons x xs ih =>
    intro i h
    rw [rlastIdx] at h
    revert h
    split
    · next j hj =>
      intro h
      obtain ⟨hlt, hdrop, hmem⟩ := ih j hj
      cases h
      refine ⟨by simpa using Nat.succ_lt_succ hlt, ?_, ?_⟩
      · simpa using hdrop
      · simpa using hmem
    · next hnone =>
      intro h
      split at h
      · next he =>
        cases h
        subst he
        exact ⟨by simp, by simp, by simpa using rlastIdx_none_not_mem _ xs hnone⟩
      · cases h

theorem rlastIdx_append_some (c : Char) :
    ∀ (l₁ l₂ : List Char) (i : Nat), c ∉ l₁ → rlastIdx c l₂ = some i →
      rlastIdx c (l₁ ++ l₂) = some (i + l₁.length) := by
  intro l₁
  induction l₁ with
  | nil =>
    intro l₂ i _ h₂
    simpa using h₂
  | cons x xs ih =>
    intro l₂ i h h₂
    have hxs : c ∉ xs := fun hm => h (List.mem_cons_of_mem _ hm)
    rw [List.cons_append, rlastIdx, ih l₂ i hxs h₂]
    simp
    omega

theorem pySuffix_shape (name : List Char) :
    pySuffix name = []
      ∨ ∃ r, pySuffix name = '.' :: r ∧ '.' ∉ r ∧ r ≠ [] := by
  rw [pySuffix]
  split
  · next i hi =>
    obtain ⟨hlt, hdrop, hmem⟩ := rlastIdx_spec '.' name i hi
    split
    · next hcond =>
      refine Or.inr ⟨name.drop (i + 1), hdrop, hmem, ?_⟩
      have : (name.drop (i + 1)).length = name.length - (i + 1) := List.length_drop _ _
      intro he
      rw [he] at this
      simp at this
      omega
    · exact Or.inl rfl
  · exact Or.inl rfl

theorem pySuffix_stem_append (stem sfx : List Char) (hstem : stem ≠ [])
    (hdot : '.' ∉ stem)
    (hshape : sfx = [] ∨ ∃ r, sfx = '.' :: r ∧ '.' ∉ r ∧ r ≠ []) :
    pySuffix (stem ++ sfx) = sfx := by
  rcases hshape with h | ⟨r, hr, hrdot, hrne⟩
  · subst h
    rw [List.append_nil, pySuffix, rlastIdx_eq_none '.' stem hdot]
  · subst hr
    have h2 : rlastIdx '.' ('.' :: r) = some 0 := by
      rw [rlastIdx, rlastIdx_eq_none '.' r hrdot, if_pos rfl]
    have h3 : rlastIdx '.' (stem ++ '.' :: r) = some stem.length := by
      have h4 := rlastIdx_append_some '.' stem ('.' :: r) 0 hdot h2
      simpa using h4
    rw [pySuffix, h3]
    show (if 0 < stem.length ∧ stem.length + 1 < (stem ++ '.' :: r).length
        then (stem ++ '.' :: r).drop stem.length else []) = '.' :: r
    have hpos : 0 < stem.length := List.length_pos.mpr hstem
    have hlen : stem.length + 1 < (stem ++ '.' :: r).length := by
      rw [List.length_append, List.length_cons]
      have h5 := List.length_pos.mpr hrne
      omega
    rw [if_pos ⟨hpos, hlen⟩]
    exact List.drop_left stem ('.' :: r)

/-- The assembled stem of `rename_file`'s target name, before the suffix. -/
def renameStem (track title : Option (List Char)) : List Char :=
  fixPathD 50 false (pyZfill 2 (pyOr track []) ++ (" - ").toList ++ pyStr title)

theorem rename_file_target_eq (track title : Option (List Char)) (suffix : List Char) :
    rename_file_target track title suffix = renameStem track title ++ suffix := rfl

theorem renameStem_no_dot (track title : Option (List Char)) :
    '.' ∉ renameStem track title := by
  intro h
  exact fixPathD_no_illegal 50 false _ (by omega) '.' h (by decide)

theorem rename_file_second (track title : Option (List Char)) (name n1 : List Char)
    (h1 : rename_file track title name = some n1)
    (hstem : renameStem track title ≠ []) :
    rename_file track title n1 = none := by
  have hn1 : n1 = renameStem track title ++ pySuffix name := by
    rw [rename_file] at h1
    by_cases hcase : name = rename_file_target track title (pySuffix name)
    · rw [if_pos hcase] at h1
      cases h1
    · rw [if_neg hcase] at h1
      rw [← Option.some.inj h1]
      exact rename_file_target_eq track title (pySuffix name)
  have hsfx : pySuffix n1 = pySuffix name := by
    rw [hn1]
    exact pySuffix_stem_append _ _ hstem (renameStem_no_dot track title)
      (pySuffix_shape name)
  have htgt : n1 = rename_file_target track title (pySuffix n1) := by
    rw [rename_file_target_eq, hsfx, ← hn1]
  rw [rename_file, if_pos htgt]

theorem runFolders_idem (root : List (List Char)) :
    ∀ (l : List FolderState) (c : GenreCache),
      (runFolders root c (runFolders root c l).2).2 = (runFolders root c l).2 := by
  intro l
  induction l with
  | nil =>
    intro c
    rfl
  | cons f rest ih =>
    intro c
    rw [runFolders]
    have hstep : renameFolderOk root c (renameFolderOk root c f).2
        = renameFolderOk root c f := by
      rw [renameFolderOk, renameFolderOk]
    rw [runFolders]
    simp only [hstep]
    rw [ih (renameFolderOk root c f).1]

/-! ## Lemmas about the directory walk and cleanup -/

theorem cleanup_eq_self : ∀ (l : List FS), cleanup l = l := by
  intro l
  match l with
  | [] => rw [cleanup]
  | .file n :: rest =>
    rw [cleanup, cleanup_eq_self rest]
  | .dir n es :: rest =>
    rw [cleanup, cleanup_eq_self rest]
    split
    · rw [cleanup_eq_self es]
    · rfl

theorem sortDirVisited_extends :
    ∀ (l : List FS) (p : List (List Char)), ∀ q ∈ sortDirVisited p l,
      ∃ t, t ≠ [] ∧ q = p ++ t := by
  intro l
  match l with
  | [] =>
    intro p q hq
    simp [sortDirVisited] at hq
  | .file n :: rest =>
    intro p q hq
    rw [sortDirVisited] at hq
    exact sortDirVisited_extends rest p q hq
  | .dir n es :: rest =>
    intro p q hq
    rw [sortDirVisited] at hq
    rcases List.mem_append.mp hq with h1 | h1
    · revert h1
      split
      · intro h1
        rcases List.mem_append.mp h1 with h2 | h2
        · obtain ⟨t, htne, hteq⟩ := sortDirVisited_extends es (p ++ [n]) q h2
          exact ⟨[n] ++ t, by simp, by simpa using hteq⟩
        · revert h2
          split
          · intro h2
            rcases List.mem_singleton.mp h2 with h3
            exact ⟨[n], by simp, h3⟩
          · intro h2
            simp at h2
      · intro h1
        simp at h1
    · exact sortDirVisited_extends rest p q h1

/-! ## Dictionary lookup lemmas -/

theorem dictGet_cons_ne (p : List Char × List Char) (m : GenreCache) (k : List Char)
    (h : ¬ p.1 = k) : dictGet (p :: m) k = dictGet m k := by
  rw [dictGet, dictGet, List.find?_cons_of_neg]
  simp [h]

theorem dictGet_dictSet_self (m : GenreCache) (k v : List Char) :
    dictGet (dictSet m k v) k = some v := by
  induction m with
  | nil => rw [dictSet, dictGet, List.find?_cons_of_pos _ (by simp)]
  | cons p rest ih =>
    rw [dictSet]
    split
    · rw [dictGet, List.find?_cons_of_pos _ (by simp)]
    · next hne =>
      rw [dictGet_cons_ne p _ k hne]
      exact ih

theorem dictGet'_cons_ne (p : List Char × Option (List Char)) (m : GenreCache')
    (k : List Char) (h : ¬ p.1 = k) : dictGet' (p :: m) k = dictGet' m k := by
  rw [dictGet', dictGet', List.find?_cons_of_neg]
  simp [h]

theorem dictGet'_dictSet'_self (m : GenreCache') (k : List Char) (v : Option (List Char)) :
    dictGet' (dictSet' m k v) k = some v := by
  induction m with
  | nil => rw [dictSet', dictGet', List.find?_cons_of_pos _ (by simp)]
  | cons p rest ih =>
    rw [dictSet']
    split
    · rw [dictGet', List.find?_cons_of_pos _ (by simp)]
    · next hne =>
      rw [dictGet'_cons_ne p _ k hne]
      exact ih

/-- `cache.genre` with the single-genre policy enabled, as an equation on the
lower-cased key. -/
theorem cache_genre_on (st : GenreCache') (a : List Char) (d : Option (List Char)) :
    cache_genre true st a d
      = match dictGet' st (pyLower a) with
        | some v => (v, st)
        | none => (d, dictSet' st (pyLower a) d) := rfl

/-! ## The claims -/

/-- C1, counterexample: a folder with no genre, artist, album or year tags is
*not* sent to `<root>/UNKNOWN_GENRE/UNKNOWN_ARTIST/UNKNOWN_ALBUM` by
`MusicFolder.autopath`: the album component falls back to `"Singles"`, not
`"UNKNOWN_ALBUM"` (shown on a fresh genre cache, relative to the root). -/
theorem c1_unknown_tags_counterexample :
    (autopath [] ⟨none, none, none, none⟩).1
      = [("UNKNOWN_GENRE").toList, ("UNKNOWN_ARTIST").toList, ("Singles").toList]
    ∧ (autopath [] ⟨none, none, none, none⟩).1
      ≠ [("UNKNOWN_GENRE").toList, ("UNKNOWN_ARTIST").toList, ("UNKNOWN_ALBUM").toList] := by
  constructor
  · decide
  · decide

/-- C1, amended: for a music folder whose classified genre, artist, album and
year are all absent, `MusicFolder.autopath` of src/mus_sort.py computes the
relative target `UNKNOWN_GENRE/UNKNOWN_ARTIST/Singles` — genre and artist
fall back to their placeholders but the album falls back to `"Singles"` —
provided the genre cache holds no entry for the placeholder artist; the
musort rewrite's `MusicFile.get_new_dir` computes
`UNKNOWN_GENRE/UNKNOWN_ARTIST/UNKNOWN_ALBUM` as the claim stated. -/
theorem c1_unknown_tags_amended (c : GenreCache)
    (h : dictGet c (("UNKNOWN_ARTIST").toList) = none) :
    (autopath c ⟨none, none, none, none⟩).1
      = [("UNKNOWN_GENRE").toList, ("UNKNOWN_ARTIST").toList, ("Singles").toList]
    ∧ get_new_dir ⟨none, none, none, none, none, none⟩
      = [("UNKNOWN_GENRE").toList, ("UNKNOWN_ARTIST").toList, ("UNKNOWN_ALBUM").toList] := by
  constructor
  · show [(genre c (("UNKNOWN_ARTIST").toList) (("UNKNOWN_GENRE").toList)).1,
        ("UNKNOWN_ARTIST").toList, ("Singles").toList]
      = [("UNKNOWN_GENRE").toList, ("UNKNOWN_ARTIST").toList, ("Singles").toList]
    rw [genre, h]
  · decide

/-- C1, witness for the amended theorem at the empty genre cache. -/
theorem c1_unknown_tags_amended_witness :
    dictGet [] (("UNKNOWN_ARTIST").toList) = none
    ∧ ((autopath [] ⟨none, none, none, none⟩).1
        = [("UNKNOWN_GENRE").toList, ("UNKNOWN_ARTIST").toList, ("Singles").toList]
      ∧ get_new_dir ⟨none, none, none, none, none, none⟩
        = [("UNKNOWN_GENRE").toList, ("UNKNOWN_ARTIST").toList, ("UNKNOWN_ALBUM").toList]) :=
  ⟨rfl, c1_unknown_tags_amended [] rfl⟩

/-- C2: the claim (and `cleanup`'s own docstring) says every directory left
empty is removed; the body of `cleanup` in src/mus_sort.py only recurses into
valid subdirectories and contains no `rmdir`/`unlink` call, so it removes
nothing: it is the identity on every directory tree, and in particular an
empty subdirectory survives. -/
theorem c2_cleanup_removes_nothing :
    (∀ entries : List FS, cleanup entries = entries)
    ∧ cleanup [FS.dir (("empty").toList) []] = [FS.dir (("empty").toList) []] :=
  ⟨cleanup_eq_self, cleanup_eq_self _⟩

/-- C3, counterexample: the sanitizer does not return a bounded string for
*every* `maxWidth` — at width 2 (even for the one-character input `"a"`,
which would fit) `textwrap.fill` raises `ValueError` (`"placeholder too
large for max width"`), so `fix_path` raises instead of returning. -/
theorem c3_sanitize_counterexample :
    fix_path 2 false (("a").toList) = .error () := rfl

/-- C3, amended: for every input string, every `strict` flag and every
`maxWidth ≥ 3` (the width of the truncation placeholder `"(…)"`), `fix_path`
returns a string of length at most `maxWidth` containing no character of the
illegal table — no colon, double quote, slash, backslash, pipe, asterisk,
question mark, angle bracket, or period (hence in particular never the
table's three-dot ellipsis `"..."`).  For `maxWidth < 3` it raises
`ValueError` instead of returning. -/
theorem c3_sanitize_amended (width : Nat) (strict : Bool) (name : List Char)
    (h3 : 3 ≤ width) :
    ∃ r, fix_path width strict name = .ok r ∧ r.length ≤ width
      ∧ (∀ c ∈ r, c ∉ illegalChars)
      ∧ ¬ (("...").toList <:+: r) := by
  obtain ⟨r, hok, hlen, hchars⟩ := fix_path_safe width strict name h3
  refine ⟨r, hok, hlen, hchars, ?_⟩
  intro hinf
  exact hchars '.' (hinf.subset (by decide)) (by decide)

/-- C3, witness for the amended theorem at width 50 on an input exercising
the replacement table. -/
theorem c3_sanitize_amended_witness :
    3 ≤ 50
    ∧ ∃ r, fix_path 50 false (("What?: a/b...").toList) = .ok r ∧ r.length ≤ 50
      ∧ (∀ c ∈ r, c ∉ illegalChars)
      ∧ ¬ (("...").toList <:+: r) :=
  ⟨by decide, c3_sanitize_amended 50 false (("What?: a/b...").toList) (by decide)⟩

/-- C4: the claim says a tag-read failure is recorded in the ledger and never
silently dropped; but `sort_dir` guards the append with `if errs:` — Python
truthiness on the list — so when the ledger is still empty (as it is for the
first failure of every run) the record is dropped, while a non-empty ledger
does receive the `(error kind, path)` record. -/
theorem c4_tag_error_dropped_when_ledger_empty :
    (∀ errName dirPath : List Char, handleTagError [] errName dirPath = [])
    ∧ (∀ (e : ErrEntry) (errs : List ErrEntry) (errName dirPath : List Char),
        handleTagError (e :: errs) errName dirPath
          = (e :: errs) ++ [[some errName, some dirPath]]) := by
  constructor
  · intro a b
    rfl
  · intro e errs a b
    rw [handleTagError, if_pos (by simp)]

/-- C5: the reorganizer is idempotent on its success path — a second run over
the folders produced by a first run (same root, both runs starting from the
same genre-cache state) computes for every folder a target equal to its
current path, so the folder list is unchanged; for files, a name just
produced by `rename_file` is a fixed point (the second call performs no
rename), and whenever the computed name equals the current name the guard
`if p.name != target.name` suppresses the filesystem operation. -/
theorem c5_second_run_no_moves (root : List (List Char)) (c : GenreCache)
    (folders : List FolderState) (track title : Option (List Char))
    (name n1 : List Char)
    (h1 : rename_file track title name = some n1)
    (hstem : renameStem track title ≠ []) :
    (runFolders root c (runFolders root c folders).2).2
      = (runFolders root c folders).2
    ∧ rename_file track title n1 = none
    ∧ (∀ name2 : List Char,
        name2 = rename_file_target track title (pySuffix name2) →
        rename_file track title name2 = none) := by
  refine ⟨runFolders_idem root folders c,
    rename_file_second track title name n1 h1 hstem, ?_⟩
  intro name2 h2
  rw [rename_file, if_pos h2]

/-- C5, witness: a file `x.mp3` with track 3 and title `Foo` is renamed to
`03 - Foo.mp3`, and renaming that result again is a no-op. -/
theorem c5_second_run_no_moves_witness :
    rename_file (some (("3").toList)) (some (("Foo").toList)) (("x.mp3").toList)
      = some (("03 - Foo.mp3").toList)
    ∧ renameStem (some (("3").toList)) (some (("Foo").toList)) ≠ []
    ∧ rename_file (some (("3").toList)) (some (("Foo").toList))
        (("03 - Foo.mp3").toList) = none :=
  ⟨by decide, by decide,
    (c5_second_run_no_moves [] [] [] (some (("3").toList)) (some (("Foo").toList))
      (("x.mp3").toList) (("03 - Foo.mp3").toList) (by decide) (by decide)).2.1⟩

/-- C6: under the single-genre-per-artist policy, the rewrite's `cache.genre`
stores the proposed genre on the first call for a case-normalized artist key
and returns it; every later call for the same key returns the stored value
regardless of the new proposal; hence a second folder of the same artist
(any letter case) with a different genre still gets the first folder's
genre. -/
theorem c6_genre_first_seen_wins (st : GenreCache') (a1 a2 : List Char)
    (d1 d2 : Option (List Char))
    (hkey : pyLower a2 = pyLower a1)
    (hfresh : dictGet' st (pyLower a1) = none) :
    (cache_genre true st a1 d1).1 = d1
    ∧ dictGet' (cache_genre true st a1 d1).2 (pyLower a1) = some d1
    ∧ (∀ st2 v, dictGet' st2 (pyLower a1) = some v →
        (cache_genre true st2 a1 d2).1 = v)
    ∧ (cache_genre true (cache_genre true st a1 d1).2 a2 d2).1 = d1 := by
  have h1 : cache_genre true st a1 d1 = (d1, dictSet' st (pyLower a1) d1) := by
    rw [cache_genre_on, hfresh]
  refine ⟨by rw [h1], by rw [h1]; exact dictGet'_dictSet'_self st (pyLower a1) d1,
    ?_, ?_⟩
  · intro st2 v hv
    rw [cache_genre_on, hv]
  · rw [h1, cache_genre_on]
    show (match dictGet' (dictSet' st (pyLower a1) d1) (pyLower a2) with
      | some v => (v, dictSet' st (pyLower a1) d1)
      | none => (d2, dictSet' (dictSet' st (pyLower a1) d1) (pyLower a2) d2)).1 = d1
    rw [hkey, dictGet'_dictSet'_self st (pyLower a1) d1]

/-- C6, witness: artist `ABBA` first classified as `Pop`; the folder
classified later as `abba`/`Disco` still gets `Pop`. -/
theorem c6_genre_first_seen_wins_witness :
    pyLower (("abba").toList) = pyLower (("ABBA").toList)
    ∧ dictGet' [] (pyLower (("ABBA").toList)) = none
    ∧ (cache_genre true
        (cache_genre true [] (("ABBA").toList) (some (("Pop").toList))).2
        (("abba").toList) (some (("Disco").toList))).1 = some (("Pop").toList) :=
  ⟨by decide, rfl,
    (c6_genre_first_seen_wins [] (("ABBA").toList) (("abba").toList)
      (some (("Pop").toList)) (some (("Disco").toList)) (by decide) rfl).2.2.2⟩

/-- C7, counterexample: for a file with no track and no title tags,
`rename_file`'s computed name is `00 - None.mp3` — the absent track renders
as `"00"` (the empty string is zero-filled to width 2), not as the empty
string, and the absent title renders as Python's `"None"`, not as an
`UNKNOWN_TRACK`-style placeholder; the rewrite's `get_new_name` gives
`00 - UNKNOWN_TRACK` (also `"00"`, and with no extension). -/
theorem c7_track_name_counterexample :
    rename_file_target none none ((".mp3").toList) = ("00 - None.mp3").toList
    ∧ get_new_name ⟨none, none, none, none, none, none⟩ = ("00 - UNKNOWN_TRACK").toList
    ∧ (rename_file_target none none ((".mp3").toList)).take 3 ≠ (" - ").toList := by
  refine ⟨by decide, by decide, by decide⟩

/-- C7, amended: the canonical file name starts with the track number
zero-padded to 2 digits where an *absent* track number behaves exactly like
track `"00"` (not like the empty string); in src/mus_sort.py an absent title
renders as the string `"None"` (the whole `"NN - title"` part is then
sanitized and the original extension appended), while the musort rewrite
sanitizes the title alone with the `UNKNOWN_TRACK` placeholder and appends
no extension. -/
theorem c7_track_name_amended :
    (∀ (title : Option (List Char)) (suffix : List Char),
        rename_file_target none title suffix
          = rename_file_target (some (("00").toList)) title suffix)
    ∧ (∀ (track : Option (List Char)) (suffix : List Char),
        rename_file_target track none suffix
          = rename_file_target track (some (("None").toList)) suffix)
    ∧ (∀ (g a al y title : Option (List Char)),
        get_new_name ⟨g, a, al, y, title, none⟩
          = ("00 - ").toList ++ prepare_component title (("UNKNOWN_TRACK").toList)) := by
  refine ⟨fun _ _ => rfl, fun _ _ => rfl, fun _ _ _ _ _ => rfl⟩

/-- C8: on a directory move whose computed target already exists, with a
ledger present: under the remove-duplicates policy the source's files and
the source directory are deleted while the pre-existing target stays; without
it, a `("FileExistsError", artist, album)` entry is appended to the ledger
and the source is left untouched. -/
theorem c8_collision_policy (files : List (List Char)) (l : List ErrEntry)
    (artist album : Option (List Char)) (lock : Option (Option Int)) :
    rename_folder_step ⟨true, files, true⟩ lock (some l) true artist album
      = .ok (⟨false, [], true⟩, some l)
    ∧ rename_folder_step ⟨true, files, true⟩ lock (some l) false artist album
      = .ok (⟨true, files, true⟩,
          some (l ++ [[some ("FileExistsError").toList, artist, album]])) := by
  exact ⟨rfl, rfl⟩

/-- C9: a `PermissionError` with `winerror == 5` (target locked) during a
directory move is downgraded when a ledger exists — a
`("PermissionError", artist, album)` warning entry is appended, the world is
untouched (move skipped) and no exception escapes; with no ledger available
the error propagates. -/
theorem c9_permission_downgrade (files : List (List Char)) (l : List ErrEntry)
    (artist album : Option (List Char)) (win : Option Int) :
    rename_folder_step ⟨true, files, false⟩ (some (some 5)) (some l) false artist album
      = .ok (⟨true, files, false⟩,
          some (l ++ [[some ("PermissionError").toList, artist, album]]))
    ∧ rename_folder_step ⟨true, files, false⟩ (some win) none false artist album
      = .error (.permission win) := by
  constructor
  · rfl
  · show rename_folder_handle (.permissionError win) none false artist album _ = _
    rw [rename_folder_handle]
    rw [if_pos (Or.inr rfl)]

/-- C10: `sort_root` never classifies or renames the starting directory
itself: it is never among the directories `sort_dir` processes, and every
processed directory's path strictly extends the starting directory's path
(so the starting directory's own path is untouched by the run). -/
theorem c10_start_dir_never_processed (start : List (List Char)) (entries : List FS)
    (renameFiles renameDirs : Bool) :
    start ∉ sortRootVisited renameFiles renameDirs start entries
    ∧ ((sortRootVisited renameFiles renameDirs start entries).all
        (fun q => decide (q.take start.length = start ∧ start.length < q.length)))
      = true := by
  have key : ∀ q ∈ sortRootVisited renameFiles renameDirs start entries,
      q.take start.length = start ∧ start.length < q.length := by
    intro q hq
    rw [sortRootVisited] at hq
    split at hq
    · obtain ⟨t, htne, hteq⟩ := sortDirVisited_extends entries start q hq
      subst hteq
      refine ⟨List.take_left _ _, ?_⟩
      rw [List.length_append]
      have hpos := List.length_pos.mpr htne
      omega
    · simp at hq
  constructor
  · intro hmem
    have h2 := key start hmem
    omega
  · rw [List.all_eq_true]
    intro q hq
    exact decide_eq_true (key q hq)

end MusSort
